import Mathlib

/-!
# Verification of `yaml_source_map.handle`

A shallow embedding of `src/yaml_source_map/handle.py` (functions `value`,
`sequence` and `primitive`) together with proofs about it.

The Python code works on a PyYAML `Loader`, using only two operations:
`peek_token()` (non-consuming, returns `None` when the stream is exhausted)
and `get_token()` (consuming, returns `None` when the stream is exhausted).
We model the loader as a `List Token` cursor: peeking is `List.head?` and
consuming a token moves to `List.tail`.

The Python functions are mutually recursive (`value` calls `sequence`,
whose `while` loop calls `value` again).  We embed them as fuel-indexed
total functions `valueF`/`sequenceF`/`seqLoopF` (the `while` loop of
`sequence` becomes `seqLoopF`); exhausting the fuel yields the distinguished
error `WalkError.outOfFuel`, which is proved unreachable for the fuel used
by the top-level wrappers `value`/`sequence`.
-/

namespace YamlSourceMap

/-- The PyYAML token classes that `handle.py` distinguishes with
`isinstance`; every other PyYAML token class behaves identically there, so
they are all represented by `other`. -/
inductive TokenKind where
  | flowSequenceStart
  | flowSequenceEnd
  | blockSequenceStart
  | blockEnd
  | blockEntry
  | flowEntry
  | scalar
  | other
  deriving DecidableEq, Repr

/-- Modelled from the spec: a `Location` is an immutable triple
`(line, column, offset)`; the code (`types.Location`, not under `src/`)
is constructed positionally as `Location(line, column, index)`, where
`index` is the absolute offset. -/
structure Location where
  line : Nat
  column : Nat
  index : Nat
  deriving DecidableEq, Repr

/-- Modelled from the spec: a token carries a kind and a start/end mark,
each resolvable to `(line, column, offset)` (the tokenizer contract).
PyYAML marks expose `.line`, `.column`, `.index`, so a mark is a
`Location`. -/
structure Token where
  kind : TokenKind
  startMark : Location
  endMark : Location
  deriving DecidableEq, Repr

/-- Modelled from the spec: an `Entry` (the spec's `Span`) is an immutable
pair `(valueStart, valueEnd)` of `Location`s; the code (`types.Entry`, not
under `src/`) is constructed as `Entry(value_start=..., value_end=...)`. -/
structure Entry where
  value_start : Location
  value_end : Location
  deriving DecidableEq, Repr

/-- Embeds `types.TSourceMapEntries`: a list of JSON pointers paired with source
map entries. -/
abbrev TSourceMapEntries := List (String × Entry)

/-- The possible failures of the embedded walk: `invalidYaml` models
`errors.InvalidYamlError`, and `outOfFuel` is an artifact of the fuel-based
embedding (proved unreachable for the wrappers' fuel). -/
inductive WalkError where
  | invalidYaml
  | outOfFuel
  deriving DecidableEq, Repr

/-- The result of a walk: either an `InvalidYamlError` (or fuel exhaustion),
or the produced entries together with the remaining token stream. -/
abbrev Res := Except WalkError (TSourceMapEntries × List Token)

/-- Computes `isinstance(tok, (yaml.FlowSequenceStartToken, yaml.BlockSequenceStartToken))`
on a token kind. -/
def isStartKind (k : TokenKind) : Bool :=
  k == .flowSequenceStart || k == .blockSequenceStart

/-- Computes `isinstance(tok, (yaml.FlowSequenceEndToken, yaml.BlockEndToken))` on a
token kind. -/
def isEndKind (k : TokenKind) : Bool :=
  k == .flowSequenceEnd || k == .blockEnd

/-- Computes `isinstance(loader.peek_token(), (FlowSequenceStartToken, BlockSequenceStartToken))`:
`peek_token()` returns `None` on an exhausted stream and `isinstance(None, _)`
is `False`. -/
def isStartTok : Option Token → Bool
  | some t => isStartKind t.kind
  | none => false

/-- Computes `isinstance(loader.peek_token(), (FlowSequenceEndToken, BlockEndToken))`. -/
def isEndTok : Option Token → Bool
  | some t => isEndKind t.kind
  | none => false

/-- Computes `isinstance(loader.peek_token(), yaml.BlockEntryToken)`. -/
def isBlockEntryTok : Option Token → Bool
  | some t => t.kind == .blockEntry
  | none => false

/-- Computes `isinstance(loader.peek_token(), yaml.FlowEntryToken)`. -/
def isFlowEntryTok : Option Token → Bool
  | some t => t.kind == .flowEntry
  | none => false

/-- Embeds `handle.primitive`: consume one token (`loader.get_token()`); raise
`InvalidYamlError` unless it is a `ScalarToken`; otherwise return the single
entry `("", Entry(value_start=start_mark, value_end=end_mark))`. -/
def primitive (ts : List Token) : Res :=
  match ts with
  | [] => .error .invalidYaml
  | t :: rest =>
    if t.kind == .scalar then
      .ok ([("", ⟨t.startMark, t.endMark⟩)], rest)
    else
      .error .invalidYaml

/-- The re-prefixing step of the element loop of `handle.sequence`:
`(f"/{sequence_index}{pointer}", entry) for pointer, entry in value_entries`. -/
def prefixEntries (idx : Nat) (es : TSourceMapEntries) : TSourceMapEntries :=
  es.map fun pe => ("/" ++ toString idx ++ pe.1, pe.2)

mutual

/-- Embeds `handle.value` (fuel-indexed): peek the next token; dispatch to
`sequence` when it is a flow- or block-sequence start, else to
`primitive`. -/
def valueF : Nat → List Token → Res
  | 0, _ => .error .outOfFuel
  | fuel + 1, ts =>
    if isStartTok ts.head? then sequenceF fuel ts else primitive ts

/-- Embeds `handle.sequence` (fuel-indexed): consume the start token (raising
`InvalidYamlError` unless it is a flow- or block-sequence start), run the
element loop, then consume the end token (raising `InvalidYamlError` unless
it is a flow-sequence end or block end), and prepend the self entry. -/
def sequenceF : Nat → List Token → Res
  | 0, _ => .error .outOfFuel
  | fuel + 1, ts =>
    match ts with
    | [] => .error .invalidYaml
    | t :: rest =>
      if isStartKind t.kind then
        match seqLoopF fuel 0 rest with
        | .error err => .error err
        | .ok (entries, ts2) =>
          match ts2 with
          | [] => .error .invalidYaml
          | tEnd :: rest2 =>
            if isEndKind tEnd.kind then
              .ok (("", ⟨t.startMark, tEnd.endMark⟩) :: entries, rest2)
            else
              .error .invalidYaml
      else
        .error .invalidYaml

/-- The `while` loop of `handle.sequence` (fuel-indexed): while the peeked
token is not a flow-sequence end or block end, skip a block-entry token if
present, walk one element with `value`, re-prefix its entries with
`/<index>`, skip a flow-entry token if present, and continue with the next
index. -/
def seqLoopF : Nat → Nat → List Token → Res
  | 0, _, _ => .error .outOfFuel
  | fuel + 1, idx, ts =>
    if isEndTok ts.head? then
      .ok ([], ts)
    else
      match valueF fuel (if isBlockEntryTok ts.head? then ts.tail else ts) with
      | .error err => .error err
      | .ok (ventries, ts2) =>
        match seqLoopF fuel (idx + 1)
            (if isFlowEntryTok ts2.head? then ts2.tail else ts2) with
        | .error err => .error err
        | .ok (rentries, ts4) => .ok (prefixEntries idx ventries ++ rentries, ts4)

end

/-- Fuel sufficient for a token list of length `n` (proved adequate
below: the walk needs recursion depth at most `3 * n + 3` on a stream of
`n` tokens, and any fuel at least that deep never hits `outOfFuel`). -/
def enoughFuel (n : Nat) : Nat := 3 * n + 3

/-- Runs `handle.value` on a token cursor (`value` consumes one fuel unit
before dispatching, so it gets one more than `sequence`). -/
def value (ts : List Token) : Res := valueF (enoughFuel ts.length + 1) ts

/-- Runs `handle.sequence` on a token cursor. -/
def sequence (ts : List Token) : Res := sequenceF (enoughFuel ts.length) ts

/-! ## Derived notions used to state the properties -/

/-- Joining the sub-maps of the elements of a sequence, the i-th sub-map
re-prefixed with `/i`, starting at index `idx` (the element loop of
`handle.sequence` produces exactly this shape). -/
def joinFrom (idx : Nat) : List TSourceMapEntries → TSourceMapEntries
  | [] => []
  | s :: rest => prefixEntries idx s ++ joinFrom (idx + 1) rest

/-- The recursive shape of every source map the walk produces: a single
self entry with the empty pointer first, followed - for a sequence - by
the sub-maps of its elements in order, the i-th re-prefixed with `/i`,
each sub-map of this very shape again.  In particular the self entry of
every (nested) compound value precedes all of its descendants' entries. -/
inductive GoodMap : TSourceMapEntries → Prop where
  | prim (en : Entry) : GoodMap [("", en)]
  | seq (en : Entry) (subs : List TSourceMapEntries)
      (h : ∀ s ∈ subs, GoodMap s) : GoodMap (("", en) :: joinFrom 0 subs)

/-- The number of `/` characters in a pointer; immediate children of a
value sit at pointers with exactly one `/`. -/
def slashes (s : String) : Nat := s.data.count '/'

/-- The pointer of the i-th immediate child of a sequence. -/
def natPtr (i : Nat) : String := "/" ++ toString i

/-- The pointers of the immediate children (exactly one `/`) occurring in
a source map, in order. -/
def childPtrs (es : TSourceMapEntries) : List String :=
  (es.map Prod.fst).filter fun s => slashes s == 1

/-- The tokenizer contract of the spec: every token's start mark does not
come after its end mark, and the tokens come in document order (each
token ends no later than any later token starts), measured by absolute
offset. -/
def WFStream (ts : List Token) : Prop :=
  (∀ t ∈ ts, t.startMark.index ≤ t.endMark.index) ∧
    ts.Pairwise fun a b => a.endMark.index ≤ b.startMark.index

/-- Every entry's span is well ordered: the start offset does not exceed
the end offset. -/
def SpanOrdered (es : TSourceMapEntries) : Prop :=
  ∀ pe ∈ es, pe.2.value_start.index ≤ pe.2.value_end.index

/-- Every entry's span starts no earlier than some token of the stream the
walk was started on. -/
def LowerBounded (ts : List Token) (es : TSourceMapEntries) : Prop :=
  ∀ pe ∈ es, ∃ tok ∈ ts, tok.startMark.index ≤ pe.2.value_start.index

/-- Every entry's span ends no later than any token left unconsumed. -/
def UpperBounded (rem : List Token) (es : TSourceMapEntries) : Prop :=
  ∀ pe ∈ es, ∀ u ∈ rem, pe.2.value_end.index ≤ u.startMark.index

/-- A token on a single line whose start and end offsets (and columns)
are `a` and `b`; used for concrete test streams. -/
def mkTok (k : TokenKind) (a b : Nat) : Token :=
  ⟨k, ⟨0, a, a⟩, ⟨0, b, b⟩⟩

/-- The token stream of the document `[[1], 2]` as PyYAML tokenizes the
value: `[`, `[`, scalar `1`, `]`, `,`, scalar `2`, `]`. -/
def nestedDocStream : List Token :=
  [ mkTok .flowSequenceStart 0 1, mkTok .flowSequenceStart 1 2,
    mkTok .scalar 2 3, mkTok .flowSequenceEnd 3 4,
    mkTok .flowEntry 4 5, mkTok .scalar 6 7,
    mkTok .flowSequenceEnd 7 8 ]

/-- The expected source map of `[[1], 2]`. -/
def nestedDocEntries : TSourceMapEntries :=
  [("", ⟨⟨0, 0, 0⟩, ⟨0, 8, 8⟩⟩), ("/0", ⟨⟨0, 1, 1⟩, ⟨0, 4, 4⟩⟩),
    ("/0/0", ⟨⟨0, 2, 2⟩, ⟨0, 3, 3⟩⟩), ("/1", ⟨⟨0, 6, 6⟩, ⟨0, 7, 7⟩⟩)]

/-- The token stream of the document `[1, 2]`. -/
def pairDocStream : List Token :=
  [ mkTok .flowSequenceStart 0 1, mkTok .scalar 1 2,
    mkTok .flowEntry 2 3, mkTok .scalar 4 5, mkTok .flowSequenceEnd 5 6 ]

/-- The expected source map of `[1, 2]`. -/
def pairDocEntries : TSourceMapEntries :=
  [("", ⟨⟨0, 0, 0⟩, ⟨0, 6, 6⟩⟩), ("/0", ⟨⟨0, 1, 1⟩, ⟨0, 2, 2⟩⟩),
    ("/1", ⟨⟨0, 4, 4⟩, ⟨0, 5, 5⟩⟩)]

/-- The token stream of the block-form document `- 1`. -/
def blockDocStream : List Token :=
  [ mkTok .blockSequenceStart 0 0, mkTok .blockEntry 0 1,
    mkTok .scalar 2 3, mkTok .blockEnd 3 3 ]

/-- The expected source map of `- 1`. -/
def blockDocEntries : TSourceMapEntries :=
  [("", ⟨⟨0, 0, 0⟩, ⟨0, 3, 3⟩⟩), ("/0", ⟨⟨0, 2, 2⟩, ⟨0, 3, 3⟩⟩)]

/-- The token stream of the document `"hello"`: one scalar. -/
def scalarStream : List Token := [mkTok .scalar 0 7]

/-- The expected source map of a single scalar spanning offsets 0-7. -/
def scalarEntries : TSourceMapEntries := [("", ⟨⟨0, 0, 0⟩, ⟨0, 7, 7⟩⟩)]

/-- The tokenizer contract is a decidable property of a concrete stream. -/
instance (ts : List Token) : Decidable (WFStream ts) := by
  unfold WFStream
  infer_instance

/-! ## Pointer string facts

The decimal representation of a `Nat` contains no `/` character, so the
number of `/` characters of a pointer measures its depth. -/

theorem digitChar_ne_slash (n : Nat) : Nat.digitChar n ≠ '/' := by
  match n with
  | 0 | 1 | 2 | 3 | 4 | 5 | 6 | 7 | 8 | 9 | 10 | 11 | 12 | 13 | 14 | 15 => decide
  | m + 16 =>
    simp only [Nat.digitChar]
    repeat rw [if_neg (by omega)]
    decide

theorem toDigitsCore_ne_slash :
    ∀ (fuel n : Nat) (ds : List Char), (∀ c ∈ ds, c ≠ '/') →
      ∀ c ∈ Nat.toDigitsCore 10 fuel n ds, c ≠ '/' := by
  intro fuel
  induction fuel with
  | zero => intro n ds h c hc; exact h c hc
  | succ k ih =>
    intro n ds h c hc
    simp only [Nat.toDigitsCore] at hc
    split at hc
    · rcases List.mem_cons.mp hc with rfl | hc
      · exact digitChar_ne_slash _
      · exact h c hc
    · refine ih _ _ ?_ c hc
      intro d hd
      rcases List.mem_cons.mp hd with rfl | hd
      · exact digitChar_ne_slash _
      · exact h d hd

theorem toString_nat_ne_slash (n : Nat) : ∀ c ∈ (toString n).data, c ≠ '/' := by
  have h : (toString n).data = Nat.toDigits 10 n := rfl
  rw [h, Nat.toDigits]
  exact toDigitsCore_ne_slash _ _ [] (by simp)

theorem data_append (s t : String) : (s ++ t).data = s.data ++ t.data := rfl

theorem slashes_append (s t : String) : slashes (s ++ t) = slashes s + slashes t := by
  simp [slashes, data_append, List.count_append]

theorem slashes_toString_nat (i : Nat) : slashes (toString i) = 0 :=
  List.count_eq_zero.mpr fun hm => toString_nat_ne_slash i _ hm rfl

theorem slashes_natPtr (i : Nat) : slashes (natPtr i) = 1 := by
  show slashes ("/" ++ toString i) = 1
  rw [slashes_append, slashes_toString_nat]
  rfl

theorem slashes_natPtr_append (i : Nat) (p : String) :
    slashes (natPtr i ++ p) = 1 + slashes p := by
  rw [slashes_append, slashes_natPtr]

theorem natPtr_append_ne_empty (i : Nat) (p : String) : natPtr i ++ p ≠ "" := by
  intro h
  have hd : (natPtr i ++ p).data = "".data := by rw [h]
  rw [data_append] at hd
  simp [natPtr, data_append] at hd

/-! ## Inversion and stream-consumption facts -/

theorem primitive_ok {ts : List Token} {es : TSourceMapEntries} {rem : List Token}
    (h : primitive ts = .ok (es, rem)) :
    ∃ t, ts = t :: rem ∧ t.kind = .scalar ∧ es = [("", ⟨t.startMark, t.endMark⟩)] := by
  match ts with
  | [] => simp [primitive] at h
  | t :: rest =>
    simp only [primitive] at h
    split at h
    · rename_i hk
      rw [Except.ok.injEq, Prod.mk.injEq] at h
      obtain ⟨hes, hrem⟩ := h
      exact ⟨t, by rw [hrem], by simpa using hk, hes.symm⟩
    · simp at h

theorem skipIf_sublist (c : Bool) (ts : List Token) :
    (if c then ts.tail else ts).Sublist ts := by
  cases c <;> simp [List.tail_sublist]

theorem walk_consumes :
    ∀ fuel : Nat,
      (∀ ts es rem, valueF fuel ts = .ok (es, rem) →
        rem.Sublist ts ∧ rem.length < ts.length) ∧
      (∀ ts es rem, sequenceF fuel ts = .ok (es, rem) →
        rem.Sublist ts ∧ rem.length < ts.length) ∧
      (∀ idx ts es rem, seqLoopF fuel idx ts = .ok (es, rem) → rem.Sublist ts) := by
  intro fuel
  induction fuel with
  | zero =>
    refine ⟨fun ts es rem h => ?_, fun ts es rem h => ?_, fun idx ts es rem h => ?_⟩ <;>
      simp [valueF, sequenceF, seqLoopF] at h
  | succ n ih =>
    obtain ⟨ihV, ihS, ihL⟩ := ih
    refine ⟨fun ts es rem h => ?_, fun ts es rem h => ?_, fun idx ts es rem h => ?_⟩
    · -- valueF
      simp only [valueF] at h
      split at h
      · exact ihS ts es rem h
      · obtain ⟨t, rfl, -, -⟩ := primitive_ok h
        exact ⟨List.sublist_cons_self t rem, by simp⟩
    · -- sequenceF
      cases ts with
      | nil => simp [sequenceF] at h
      | cons t rest =>
        simp only [sequenceF] at h
        split at h
        · split at h
          · simp at h
          · rename_i entries ts2 hL
            split at h
            · simp at h
            · rename_i tEnd rest2
              split at h
              · rw [Except.ok.injEq, Prod.mk.injEq] at h
                have hrem : rest2 = rem := h.2
                have h2 : (tEnd :: rest2).Sublist rest := ihL 0 rest entries _ hL
                have hsub : rem.Sublist rest := by
                  rw [← hrem]
                  exact (List.sublist_cons_self tEnd rest2).trans h2
                refine ⟨hsub.trans (List.sublist_cons_self t rest), ?_⟩
                have := hsub.length_le
                simp only [List.length_cons]
                omega
              · simp at h
        · simp at h
    · -- seqLoopF
      simp only [seqLoopF] at h
      split at h
      · rw [Except.ok.injEq, Prod.mk.injEq] at h
        rw [← h.2]
      · split at h
        · simp at h
        · rename_i ventries ts2 hV
          split at h
          · simp at h
          · rename_i rentries ts4 hL
            rw [Except.ok.injEq, Prod.mk.injEq] at h
            have hrem : ts4 = rem := h.2
            have hv := (ihV _ ventries ts2 hV).1
            have hl : ts4.Sublist _ := ihL (idx + 1) _ rentries ts4 hL
            rw [← hrem]
            exact hl.trans ((skipIf_sublist _ ts2).trans (hv.trans (skipIf_sublist _ ts)))

/-! ## Fuel adequacy -/

theorem primitive_ne_outOfFuel (ts : List Token) : primitive ts ≠ .error .outOfFuel := by
  cases ts with
  | nil => simp [primitive]
  | cons t rest =>
    simp only [primitive]
    split <;> simp

theorem skipIf_length (c : Bool) (ts : List Token) :
    (if c then ts.tail else ts).length ≤ ts.length := by
  cases c <;> simp [List.length_tail]

theorem walk_adequate :
    ∀ fuel : Nat,
      (∀ ts, 3 * ts.length + 2 ≤ fuel → valueF fuel ts ≠ .error .outOfFuel) ∧
      (∀ ts, 3 * ts.length + 1 ≤ fuel → sequenceF fuel ts ≠ .error .outOfFuel) ∧
      (∀ idx ts, 3 * ts.length + 3 ≤ fuel → seqLoopF fuel idx ts ≠ .error .outOfFuel) := by
  intro fuel
  induction fuel with
  | zero =>
    refine ⟨fun ts hb => ?_, fun ts hb => ?_, fun idx ts hb => ?_⟩ <;> omega
  | succ n ih =>
    obtain ⟨ihV, ihS, ihL⟩ := ih
    refine ⟨fun ts hb => ?_, fun ts hb => ?_, fun idx ts hb => ?_⟩
    · -- valueF
      simp only [valueF]
      split
      · exact ihS ts (by omega)
      · exact primitive_ne_outOfFuel ts
    · -- sequenceF
      cases ts with
      | nil => simp [sequenceF]
      | cons t rest =>
        have hl := ihL 0 rest (by simp only [List.length_cons] at hb; omega)
        simp only [sequenceF]
        split
        · split
          · rename_i err heq
            rw [heq] at hl
            simpa using hl
          · split
            · simp
            · split <;> simp
        · simp
    · -- seqLoopF
      simp only [seqLoopF]
      split
      · simp
      · have hlen1 := skipIf_length (isBlockEntryTok ts.head?) ts
        split
        · rename_i err heq
          have hv := ihV (if isBlockEntryTok ts.head? then ts.tail else ts) (by omega)
          rw [heq] at hv
          simpa using hv
        · rename_i ventries ts2 heq
          have hts2 := ((walk_consumes n).1 _ ventries ts2 heq).2
          have hlen3 := skipIf_length (isFlowEntryTok ts2.head?) ts2
          split
          · rename_i err heq2
            have hloop := ihL (idx + 1)
              (if isFlowEntryTok ts2.head? then ts2.tail else ts2) (by omega)
            rw [heq2] at hloop
            simpa using hloop
          · simp

/-! ## The shape of produced source maps -/

theorem walk_goodmap :
    ∀ fuel : Nat,
      (∀ ts es rem, valueF fuel ts = .ok (es, rem) → GoodMap es) ∧
      (∀ ts es rem, sequenceF fuel ts = .ok (es, rem) →
        ∃ en subs, es = ("", en) :: joinFrom 0 subs ∧ ∀ s ∈ subs, GoodMap s) ∧
      (∀ idx ts es rem, seqLoopF fuel idx ts = .ok (es, rem) →
        ∃ subs, es = joinFrom idx subs ∧ ∀ s ∈ subs, GoodMap s) := by
  intro fuel
  induction fuel with
  | zero =>
    refine ⟨fun ts es rem h => ?_, fun ts es rem h => ?_, fun idx ts es rem h => ?_⟩ <;>
      simp [valueF, sequenceF, seqLoopF] at h
  | succ n ih =>
    obtain ⟨ihV, ihS, ihL⟩ := ih
    refine ⟨fun ts es rem h => ?_, fun ts es rem h => ?_, fun idx ts es rem h => ?_⟩
    · -- valueF
      simp only [valueF] at h
      split at h
      · obtain ⟨en, subs, hes, hsubs⟩ := ihS ts es rem h
        rw [hes]
        exact GoodMap.seq en subs hsubs
      · obtain ⟨t, -, -, hes⟩ := primitive_ok h
        rw [hes]
        exact GoodMap.prim _
    · -- sequenceF
      cases ts with
      | nil => simp [sequenceF] at h
      | cons t rest =>
        simp only [sequenceF] at h
        split at h
        · split at h
          · simp at h
          · rename_i entries ts2 hL
            split at h
            · simp at h
            · rename_i tEnd rest2
              split at h
              · rw [Except.ok.injEq, Prod.mk.injEq] at h
                obtain ⟨subs, hentries, hsubs⟩ := ihL 0 rest entries _ hL
                refine ⟨⟨t.startMark, tEnd.endMark⟩, subs, ?_, hsubs⟩
                rw [← h.1, hentries]
              · simp at h
        · simp at h
    · -- seqLoopF
      simp only [seqLoopF] at h
      split at h
      · rw [Except.ok.injEq, Prod.mk.injEq] at h
        exact ⟨[], by rw [← h.1]; rfl, by simp⟩
      · split at h
        · simp at h
        · rename_i ventries ts2 hV
          split at h
          · simp at h
          · rename_i rentries ts4 hL
            rw [Except.ok.injEq, Prod.mk.injEq] at h
            have hgood := ihV _ ventries ts2 hV
            obtain ⟨subs, hrent, hsubs⟩ := ihL (idx + 1) _ rentries ts4 hL
            refine ⟨ventries :: subs, ?_, ?_⟩
            · rw [← h.1, hrent]
              rfl
            · intro s hs
              rcases List.mem_cons.mp hs with rfl | hs
              · exact hgood
              · exact hsubs s hs

theorem joinFrom_mem {idx : Nat} {subs : List TSourceMapEntries}
    {pe : String × Entry} (h : pe ∈ joinFrom idx subs) :
    ∃ i p, pe.1 = natPtr i ++ p := by
  induction subs generalizing idx with
  | nil => simp [joinFrom] at h
  | cons s rest ih =>
    rw [joinFrom] at h
    rcases List.mem_append.mp h with hs | hs
    · obtain ⟨q, -, hq⟩ := List.mem_map.mp hs
      refine ⟨idx, q.1, ?_⟩
      rw [← hq]
      rfl
    · exact ih hs

theorem goodmap_shape {es : TSourceMapEntries} (h : GoodMap es) :
    ∃ en rest, es = ("", en) :: rest ∧ ∀ pe ∈ rest, ∃ i p, pe.1 = natPtr i ++ p := by
  cases h with
  | prim en => exact ⟨en, [], rfl, by simp⟩
  | seq en subs hsubs => exact ⟨en, _, rfl, fun pe hpe => joinFrom_mem hpe⟩

theorem childPtrs_append (a b : TSourceMapEntries) :
    childPtrs (a ++ b) = childPtrs a ++ childPtrs b := by
  simp [childPtrs, List.map_append, List.filter_append]

theorem slashes_empty : slashes "" = 0 := rfl

theorem childPtrs_prefixEntries {idx : Nat} {s : TSourceMapEntries}
    (h : GoodMap s) : childPtrs (prefixEntries idx s) = [natPtr idx] := by
  obtain ⟨en, rest, hs, hrest⟩ := goodmap_shape h
  subst hs
  simp only [childPtrs, prefixEntries, List.map_cons, List.filter_cons]
  rw [if_pos (show (slashes ("/" ++ toString idx ++ "") == 1) = true by
    rw [String.append_empty]
    show (slashes (natPtr idx) == 1) = true
    simp [slashes_natPtr])]
  rw [String.append_empty]
  show natPtr idx :: _ = [natPtr idx]
  rw [List.cons_eq_cons]
  refine ⟨rfl, List.filter_eq_nil_iff.mpr fun p hp => ?_⟩
  obtain ⟨pe2, hpe2, hp1⟩ := List.mem_map.mp hp
  obtain ⟨pe, hpe, hpf⟩ := List.mem_map.mp hpe2
  obtain ⟨i, q, hq⟩ := hrest pe hpe
  have hps : p = natPtr idx ++ pe.1 := by
    rw [← hp1, ← hpf]
    rfl
  rw [hps, hq, slashes_natPtr_append, slashes_natPtr_append]
  simp

theorem childPtrs_joinFrom {subs : List TSourceMapEntries}
    (h : ∀ s ∈ subs, GoodMap s) :
    ∀ idx, childPtrs (joinFrom idx subs) = (List.range' idx subs.length).map natPtr := by
  induction subs with
  | nil => intro idx; rfl
  | cons s rest ih =>
    intro idx
    rw [joinFrom, childPtrs_append, childPtrs_prefixEntries (h s (by simp)),
      ih (fun s hs => h s (by simp [hs])) (idx + 1)]
    rw [List.length_cons, List.range'_succ, List.map_cons]
    rfl

/-! ## Span bounds under the tokenizer contract -/

theorem WFStream_sublist {ts1 ts : List Token} (hs : ts1.Sublist ts)
    (h : WFStream ts) : WFStream ts1 :=
  ⟨fun t ht => h.1 t (hs.subset ht), h.2.sublist hs⟩

theorem WFStream_cons {t : Token} {ts : List Token} (h : WFStream (t :: ts)) :
    WFStream ts ∧ t.startMark.index ≤ t.endMark.index ∧
      ∀ u ∈ ts, t.endMark.index ≤ u.startMark.index := by
  obtain ⟨h1, h2⟩ := h
  rw [List.pairwise_cons] at h2
  exact ⟨⟨fun u hu => h1 u (by simp [hu]), h2.2⟩, h1 t (by simp), h2.1⟩

theorem prefixEntries_mem {idx : Nat} {es : TSourceMapEntries}
    {pe : String × Entry} (h : pe ∈ prefixEntries idx es) :
    ∃ q ∈ es, pe.2 = q.2 := by
  obtain ⟨q, hq, he⟩ := List.mem_map.mp h
  exact ⟨q, hq, by rw [← he]⟩

theorem walk_spans :
    ∀ fuel : Nat,
      (∀ ts es rem, WFStream ts → valueF fuel ts = .ok (es, rem) →
        SpanOrdered es ∧ LowerBounded ts es ∧ UpperBounded rem es) ∧
      (∀ ts es rem, WFStream ts → sequenceF fuel ts = .ok (es, rem) →
        (SpanOrdered es ∧ LowerBounded ts es ∧ UpperBounded rem es) ∧
        ∀ root, es.head? = some root → ∀ pe ∈ es,
          root.2.value_start.index ≤ pe.2.value_start.index ∧
          pe.2.value_end.index ≤ root.2.value_end.index) ∧
      (∀ idx ts es rem, WFStream ts → seqLoopF fuel idx ts = .ok (es, rem) →
        SpanOrdered es ∧ LowerBounded ts es ∧ UpperBounded rem es) := by
  intro fuel
  induction fuel with
  | zero =>
    refine ⟨fun ts es rem hWF h => ?_, fun ts es rem hWF h => ?_,
      fun idx ts es rem hWF h => ?_⟩ <;> simp [valueF, sequenceF, seqLoopF] at h
  | succ n ih =>
    obtain ⟨ihV, ihS, ihL⟩ := ih
    refine ⟨fun ts es rem hWF h => ?_, fun ts es rem hWF h => ?_,
      fun idx ts es rem hWF h => ?_⟩
    · -- valueF
      simp only [valueF] at h
      split at h
      · exact (ihS ts es rem hWF h).1
      · obtain ⟨t, rfl, -, hes⟩ := primitive_ok h
        subst hes
        obtain ⟨-, hse, hR⟩ := WFStream_cons hWF
        refine ⟨?_, ?_, ?_⟩
        · intro pe hpe
          rcases List.mem_singleton.mp hpe with rfl
          exact hse
        · intro pe hpe
          rcases List.mem_singleton.mp hpe with rfl
          exact ⟨t, by simp, le_refl _⟩
        · intro pe hpe u hu
          rcases List.mem_singleton.mp hpe with rfl
          exact hR u hu
    · -- sequenceF
      cases ts with
      | nil => simp [sequenceF] at h
      | cons t rest =>
        simp only [sequenceF] at h
        split at h
        · split at h
          · simp at h
          · rename_i entries ts2 hL
            split at h
            · simp at h
            · rename_i tEnd rest2
              split at h
              · rename_i hke
                rw [Except.ok.injEq, Prod.mk.injEq] at h
                obtain ⟨hes, hrem⟩ := h
                subst hes
                subst hrem
                obtain ⟨hWFrest, hse_t, hR⟩ := WFStream_cons hWF
                have hcons : (tEnd :: rest2).Sublist rest :=
                  (walk_consumes n).2.2 0 rest entries _ hL
                have hWF2 : WFStream (tEnd :: rest2) := WFStream_sublist hcons hWFrest
                obtain ⟨-, hse_e, hR2⟩ := WFStream_cons hWF2
                have htEnd : tEnd ∈ rest := hcons.subset (by simp)
                obtain ⟨L1, L2, L3⟩ := ihL 0 rest entries _ hWFrest hL
                have hroot1 : t.startMark.index ≤ tEnd.endMark.index :=
                  le_trans hse_t (le_trans (hR tEnd htEnd) hse_e)
                refine ⟨⟨?_, ?_, ?_⟩, ?_⟩
                · intro pe hpe
                  rcases List.mem_cons.mp hpe with rfl | hc
                  · exact hroot1
                  · exact L1 pe hc
                · intro pe hpe
                  rcases List.mem_cons.mp hpe with rfl | hc
                  · exact ⟨t, by simp, le_refl _⟩
                  · obtain ⟨tok, htok, hle⟩ := L2 pe hc
                    exact ⟨tok, by simp [htok], hle⟩
                · intro pe hpe u hu
                  rcases List.mem_cons.mp hpe with rfl | hc
                  · exact hR2 u hu
                  · exact L3 pe hc u (by simp [hu])
                · intro root hroot pe hpe
                  simp only [List.head?_cons, Option.some.injEq] at hroot
                  subst hroot
                  rcases List.mem_cons.mp hpe with rfl | hc
                  · exact ⟨le_refl _, le_refl _⟩
                  · constructor
                    · obtain ⟨tok, htok, hle⟩ := L2 pe hc
                      exact le_trans hse_t (le_trans (hR tok htok) hle)
                    · exact le_trans (L3 pe hc tEnd (by simp)) hse_e
              · simp at h
        · simp at h
    · -- seqLoopF
      simp only [seqLoopF] at h
      split at h
      · rw [Except.ok.injEq, Prod.mk.injEq] at h
        obtain ⟨hes, -⟩ := h
        refine ⟨?_, ?_, ?_⟩ <;>
          (intro pe hpe; rw [← hes] at hpe; simp at hpe)
      · split at h
        · simp at h
        · rename_i ventries ts2 hV
          split at h
          · simp at h
          · rename_i rentries ts4 hL2
            rw [Except.ok.injEq, Prod.mk.injEq] at h
            obtain ⟨hes, hrem⟩ := h
            subst hes
            subst hrem
            have hsub1 := skipIf_sublist (isBlockEntryTok ts.head?) ts
            have hWF1 := WFStream_sublist hsub1 hWF
            obtain ⟨V1, V2, V3⟩ := ihV _ ventries ts2 hWF1 hV
            have hsub2 : ts2.Sublist _ := ((walk_consumes n).1 _ ventries ts2 hV).1
            have hWF2 := WFStream_sublist hsub2 hWF1
            have hsub3 := skipIf_sublist (isFlowEntryTok ts2.head?) ts2
            have hWF3 := WFStream_sublist hsub3 hWF2
            obtain ⟨L1, L2, L3⟩ := ihL (idx + 1) _ rentries ts4 hWF3 hL2
            have hsub4 : ts4.Sublist _ := (walk_consumes n).2.2 (idx + 1) _ rentries ts4 hL2
            refine ⟨?_, ?_, ?_⟩
            · intro pe hpe
              rcases List.mem_append.mp hpe with hc | hc
              · obtain ⟨q, hq, h2⟩ := prefixEntries_mem hc
                rw [h2]
                exact V1 q hq
              · exact L1 pe hc
            · intro pe hpe
              rcases List.mem_append.mp hpe with hc | hc
              · obtain ⟨q, hq, h2⟩ := prefixEntries_mem hc
                obtain ⟨tok, htok, hle⟩ := V2 q hq
                exact ⟨tok, hsub1.subset htok, by rw [h2]; exact hle⟩
              · obtain ⟨tok, htok, hle⟩ := L2 pe hc
                exact ⟨tok, hsub1.subset (hsub2.subset (hsub3.subset htok)), hle⟩
            · intro pe hpe u hu
              rcases List.mem_append.mp hpe with hc | hc
              · obtain ⟨q, hq, h2⟩ := prefixEntries_mem hc
                rw [h2]
                exact V3 q hq u (hsub3.subset (hsub4.subset hu))
              · exact L3 pe hc u hu

/-! ## Streams without a terminating token -/

theorem noEnd_of_sublist {ts1 ts : List Token} (hs : ts1.Sublist ts)
    (h : ∀ t ∈ ts, isEndKind t.kind = false) : ∀ t ∈ ts1, isEndKind t.kind = false :=
  fun t ht => h t (hs.subset ht)

theorem noEnd_head {ts : List Token} (h : ∀ t ∈ ts, isEndKind t.kind = false) :
    isEndTok ts.head? = false := by
  cases ts with
  | nil => rfl
  | cons t rest => exact h t (by simp)

theorem seqLoopF_step {n idx : Nat} {ts ts2 : List Token}
    {ventries : TSourceMapEntries}
    (hend : isEndTok ts.head? = false)
    (hv : valueF n (if isBlockEntryTok ts.head? then ts.tail else ts) =
      .ok (ventries, ts2)) :
    seqLoopF (n + 1) idx ts =
      match seqLoopF n (idx + 1)
          (if isFlowEntryTok ts2.head? then ts2.tail else ts2) with
      | .error err => .error err
      | .ok (rentries, ts4) => .ok (prefixEntries idx ventries ++ rentries, ts4) := by
  simp only [seqLoopF, hend]
  rw [if_neg (by simp), hv]

theorem noEnd_walk :
    ∀ fuel : Nat,
      (∀ ts, (∀ t ∈ ts, isEndKind t.kind = false) →
        valueF fuel ts = .error .invalidYaml ∨ valueF fuel ts = .error .outOfFuel ∨
          ∃ es rem, valueF fuel ts = .ok (es, rem)) ∧
      (∀ ts, (∀ t ∈ ts, isEndKind t.kind = false) →
        sequenceF fuel ts = .error .invalidYaml ∨
          sequenceF fuel ts = .error .outOfFuel) ∧
      (∀ idx ts, (∀ t ∈ ts, isEndKind t.kind = false) →
        seqLoopF fuel idx ts = .error .invalidYaml ∨
          seqLoopF fuel idx ts = .error .outOfFuel) := by
  intro fuel
  induction fuel with
  | zero =>
    exact ⟨fun ts h => Or.inr (Or.inl rfl), fun ts h => Or.inr rfl,
      fun idx ts h => Or.inr rfl⟩
  | succ n ih =>
    obtain ⟨ihV, ihS, ihL⟩ := ih
    refine ⟨fun ts h => ?_, fun ts h => ?_, fun idx ts h => ?_⟩
    · -- valueF
      simp only [valueF]
      split
      · rcases ihS ts h with h1 | h1
        · exact Or.inl h1
        · exact Or.inr (Or.inl h1)
      · cases ts with
        | nil => exact Or.inl rfl
        | cons t rest =>
          simp only [primitive]
          split
          · exact Or.inr (Or.inr ⟨_, _, rfl⟩)
          · exact Or.inl rfl
    · -- sequenceF
      cases ts with
      | nil => exact Or.inl rfl
      | cons t rest =>
        have hrest : ∀ u ∈ rest, isEndKind u.kind = false := fun u hu => h u (by simp [hu])
        simp only [sequenceF]
        split
        · rcases ihL 0 rest hrest with h1 | h1
          · rw [h1]
            exact Or.inl rfl
          · rw [h1]
            exact Or.inr rfl
        · exact Or.inl rfl
    · -- seqLoopF
      have hend := noEnd_head h
      have hts1 : ∀ t ∈ (if isBlockEntryTok ts.head? then ts.tail else ts),
          isEndKind t.kind = false :=
        noEnd_of_sublist (skipIf_sublist _ ts) h
      rcases ihV _ hts1 with h1 | h1 | ⟨es, ts2, h1⟩
      · left
        simp only [seqLoopF, hend]
        rw [if_neg (by simp), h1]
      · right
        simp only [seqLoopF, hend]
        rw [if_neg (by simp), h1]
      · rw [seqLoopF_step hend h1]
        have hts2 : ∀ t ∈ ts2, isEndKind t.kind = false :=
          noEnd_of_sublist ((walk_consumes n).1 _ es ts2 h1).1 hts1
        have hts3 : ∀ t ∈ (if isFlowEntryTok ts2.head? then ts2.tail else ts2),
            isEndKind t.kind = false :=
          noEnd_of_sublist (skipIf_sublist _ ts2) hts2
        rcases ihL (idx + 1) _ hts3 with h2 | h2
        · rw [h2]
          exact Or.inl rfl
        · rw [h2]
          exact Or.inr rfl

theorem sequence_noEnd {ts : List Token}
    (h : ∀ t ∈ ts, isEndKind t.kind = false) :
    sequence ts = .error .invalidYaml := by
  rcases ((noEnd_walk (enoughFuel ts.length)).2.1 ts h) with h1 | h1
  · exact h1
  · exact absurd h1 ((walk_adequate (enoughFuel ts.length)).2.1 ts
      (by simp [enoughFuel]))

/-! ## The claims -/

/-- C1 (counterexample): the concrete stream `[` … generic block-end — a
flow-sequence start closed by a token of the block form's end kind — makes
`sequence` RETURN A SOURCE MAP instead of failing with `InvalidYamlError`,
refuting the claim that mismatched start/end forms are rejected. -/
theorem c1_counterexample :
    sequence [mkTok .flowSequenceStart 0 1, mkTok .blockEnd 1 1] =
      .ok ([("", ⟨⟨0, 0, 0⟩, ⟨0, 1, 1⟩⟩)], []) := rfl

/-- C1 (amended): `sequence` accepts ANY terminator whose kind is
flow-sequence-end or block-end, regardless of which form opened the
sequence; no form-matching check is performed, so both mismatched pairs
succeed and yield the self entry spanning from the start token's start to
the end token's end. -/
theorem c1_mismatched_end_accepted (a b c d : Location) :
    sequence [⟨.flowSequenceStart, a, b⟩, ⟨.blockEnd, c, d⟩] =
      .ok ([("", ⟨a, d⟩)], []) ∧
    sequence [⟨.blockSequenceStart, a, b⟩, ⟨.flowSequenceEnd, c, d⟩] =
      .ok ([("", ⟨a, d⟩)], []) := ⟨rfl, rfl⟩

/-- C3 (counterexample): a block-sequence start that is never followed by
the matching block-end (only by a flow-sequence end) does NOT raise: the
walk returns a source map, refuting the claim as stated. -/
theorem c3_counterexample :
    sequence [mkTok .blockSequenceStart 0 0, mkTok .flowSequenceEnd 3 4] =
      .ok ([("", ⟨⟨0, 0, 0⟩, ⟨0, 4, 4⟩⟩)], []) := rfl

/-- C3 (amended): a token stream containing no sequence-terminating token
of either kind (no flow-sequence-end and no block-end anywhere) — in
particular one that opens a sequence and never closes it — makes
`sequence` raise `InvalidYamlError`; no partial source map is returned. -/
theorem c3_no_end_token_errors (ts : List Token)
    (h : ∀ t ∈ ts, t.kind ≠ .flowSequenceEnd ∧ t.kind ≠ .blockEnd) :
    sequence ts = .error .invalidYaml :=
  sequence_noEnd fun t ht => by
    obtain ⟨h1, h2⟩ := h t ht
    simp [isEndKind, h1, h2]

/-- Witness for C3: a flow-sequence start followed by a scalar and nothing
else raises `InvalidYamlError`. -/
theorem c3_no_end_token_errors_witness :
    (∀ t ∈ [mkTok .flowSequenceStart 0 1, mkTok .scalar 1 2],
      t.kind ≠ .flowSequenceEnd ∧ t.kind ≠ .blockEnd) ∧
    sequence [mkTok .flowSequenceStart 0 1, mkTok .scalar 1 2] =
      .error .invalidYaml :=
  ⟨by decide, c3_no_end_token_errors _ (by decide)⟩

/-- C6: `value` peeks the next token's kind without consuming anything; on
a flow- or block-sequence start it behaves as `sequence` on the same
cursor, otherwise as `primitive` on the same cursor. -/
theorem c6_value_dispatch (ts : List Token) :
    value ts = if isStartTok ts.head? then sequence ts else primitive ts := rfl

/-- C7: `primitive` consumes exactly one token: on an exhausted stream it
raises `InvalidYamlError`; on a non-scalar token it raises
`InvalidYamlError`; on a scalar token it returns the single entry `("",
Entry(token start mark, token end mark))` with exactly the rest of the
stream unconsumed. -/
theorem c7_primitive :
    primitive [] = .error .invalidYaml ∧
    ∀ (t : Token) (rest : List Token),
      primitive (t :: rest) =
        if t.kind == .scalar then
          .ok ([("", ⟨t.startMark, t.endMark⟩)], rest)
        else
          .error .invalidYaml :=
  ⟨rfl, fun _ _ => rfl⟩

/-- C8: an empty sequence — a sequence-start token immediately followed by
the matching end token (flow/flow or block/block) — yields exactly the one
self entry spanning from the start token's start to the end token's end,
with no child entries. -/
theorem c8_empty_sequence (a b c d : Location) :
    sequence [⟨.flowSequenceStart, a, b⟩, ⟨.flowSequenceEnd, c, d⟩] =
      .ok ([("", ⟨a, d⟩)], []) ∧
    sequence [⟨.blockSequenceStart, a, b⟩, ⟨.blockEnd, c, d⟩] =
      .ok ([("", ⟨a, d⟩)], []) := ⟨rfl, rfl⟩

/-- C9: on the token stream of the nested document `[[1], 2]`, `value`
returns entries for exactly the pointers `""`, `"/0"`, `"/0/0"` and
`"/1"`, in that order: nested pointers are composed by prefixing at each
recursion level. -/
theorem c9_nested_document :
    value nestedDocStream =
      .ok ([("", ⟨⟨0, 0, 0⟩, ⟨0, 8, 8⟩⟩),
            ("/0", ⟨⟨0, 1, 1⟩, ⟨0, 4, 4⟩⟩),
            ("/0/0", ⟨⟨0, 2, 2⟩, ⟨0, 3, 3⟩⟩),
            ("/1", ⟨⟨0, 6, 6⟩, ⟨0, 7, 7⟩⟩)], []) := rfl

/-- C2: whenever `sequence` succeeds after walking `k` elements, its result
is the self entry followed by the element sub-maps joined in order, the
i-th re-prefixed with `/i`; consequently the immediate-child pointers
(exactly one `/`) are exactly `/0, /1, …, /(k-1)`, contiguous, zero-based,
without gaps or duplicates, in source order. -/
theorem c2_sequence_child_pointers (ts : List Token) (es : TSourceMapEntries)
    (rem : List Token) (h : sequence ts = .ok (es, rem)) :
    ∃ (k : Nat) (en : Entry) (subs : List TSourceMapEntries),
      subs.length = k ∧ es = ("", en) :: joinFrom 0 subs ∧
      childPtrs es = (List.range k).map natPtr := by
  obtain ⟨en, subs, hes, hsubs⟩ :=
    (walk_goodmap (enoughFuel ts.length)).2.1 ts es rem h
  refine ⟨subs.length, en, subs, rfl, hes, ?_⟩
  rw [hes]
  simp only [childPtrs, List.map_cons, List.filter_cons]
  rw [if_neg (by decide)]
  rw [show List.filter (fun s => slashes s == 1)
      (List.map Prod.fst (joinFrom 0 subs)) = childPtrs (joinFrom 0 subs) from rfl]
  rw [childPtrs_joinFrom hsubs 0, ← List.range_eq_range']

/-- Witness for C2: the stream of `[1, 2]` produces child pointers
`/0` and `/1`. -/
theorem c2_sequence_child_pointers_witness :
    sequence pairDocStream = .ok (pairDocEntries, []) ∧
    ∃ (k : Nat) (en : Entry) (subs : List TSourceMapEntries),
      subs.length = k ∧ pairDocEntries = ("", en) :: joinFrom 0 subs ∧
      childPtrs pairDocEntries = (List.range k).map natPtr :=
  ⟨rfl, c2_sequence_child_pointers pairDocStream pairDocEntries [] rfl⟩

/-- C5: every successful `sequence` result has the recursive
parent-before-children shape `GoodMap`: the self entry (pointer `""`)
comes first, followed by the re-prefixed element sub-maps, each of that
very shape again; in particular no later entry carries the empty
pointer. -/
theorem c5_parent_before_children (ts : List Token) (es : TSourceMapEntries)
    (rem : List Token) (h : sequence ts = .ok (es, rem)) :
    GoodMap es ∧ ∀ pe ∈ es.tail, pe.1 ≠ "" := by
  obtain ⟨en, subs, hes, hsubs⟩ :=
    (walk_goodmap (enoughFuel ts.length)).2.1 ts es rem h
  subst hes
  refine ⟨GoodMap.seq en subs hsubs, ?_⟩
  intro pe hpe
  obtain ⟨i, p, hp⟩ := joinFrom_mem (show pe ∈ joinFrom 0 subs by simpa using hpe)
  rw [hp]
  exact natPtr_append_ne_empty i p

/-- Witness for C5: the block sequence `- 1` has its self entry first. -/
theorem c5_parent_before_children_witness :
    sequence blockDocStream = .ok (blockDocEntries, []) ∧
    (GoodMap blockDocEntries ∧ ∀ pe ∈ blockDocEntries.tail, pe.1 ≠ "") :=
  ⟨rfl, c5_parent_before_children blockDocStream blockDocEntries [] rfl⟩

/-- C10 (implicit): every successful result of `value`, `sequence` or
`primitive` is a non-empty list whose first entry carries the empty
pointer, that pointer occurs exactly once, and every other pointer starts
with `/` followed by the decimal representation of an element index. -/
theorem c10_result_shape (ts : List Token) (es : TSourceMapEntries)
    (rem : List Token)
    (h : value ts = .ok (es, rem) ∨ sequence ts = .ok (es, rem) ∨
      primitive ts = .ok (es, rem)) :
    ∃ en rest, es = ("", en) :: rest ∧
      (∀ pe ∈ rest, ∃ (i : Nat) (p : String), pe.1 = natPtr i ++ p) ∧
      (es.map Prod.fst).count "" = 1 := by
  have hgood : GoodMap es := by
    rcases h with h | h | h
    · exact (walk_goodmap (enoughFuel ts.length + 1)).1 ts es rem h
    · obtain ⟨en, subs, hes, hsubs⟩ :=
        (walk_goodmap (enoughFuel ts.length)).2.1 ts es rem h
      rw [hes]
      exact GoodMap.seq en subs hsubs
    · obtain ⟨t, -, -, hes⟩ := primitive_ok h
      rw [hes]
      exact GoodMap.prim _
  obtain ⟨en, rest, hes, hrest⟩ := goodmap_shape hgood
  refine ⟨en, rest, hes, hrest, ?_⟩
  rw [hes]
  have h0 : "" ∉ rest.map Prod.fst := by
    intro hm
    obtain ⟨pe, hpe, hp⟩ := List.mem_map.mp hm
    obtain ⟨i, p, hip⟩ := hrest pe hpe
    exact natPtr_append_ne_empty i p (by rw [← hip, hp])
  simp [List.count_cons, List.count_eq_zero.mpr h0]

/-- Witness for C10: a single scalar token. -/
theorem c10_result_shape_witness :
    (value scalarStream = .ok (scalarEntries, []) ∨
      sequence scalarStream = .ok (scalarEntries, []) ∨
      primitive scalarStream = .ok (scalarEntries, [])) ∧
    ∃ en rest, scalarEntries = ("", en) :: rest ∧
      (∀ pe ∈ rest, ∃ (i : Nat) (p : String), pe.1 = natPtr i ++ p) ∧
      (scalarEntries.map Prod.fst).count "" = 1 :=
  ⟨Or.inl rfl, c10_result_shape scalarStream scalarEntries [] (Or.inl rfl)⟩

/-- C4: under the tokenizer contract (tokens in document order, each with
start offset ≤ end offset), every entry of any successful `value`,
`sequence` or `primitive` result satisfies valueStart offset ≤ valueEnd
offset, and for a successful `sequence` the root `""` entry's span
contains every descendant entry's span. -/
theorem c4_spans (ts : List Token) (es : TSourceMapEntries) (rem : List Token)
    (hWF : WFStream ts)
    (h : value ts = .ok (es, rem) ∨ sequence ts = .ok (es, rem) ∨
      primitive ts = .ok (es, rem)) :
    SpanOrdered es ∧
    (sequence ts = .ok (es, rem) → ∀ root, es.head? = some root → ∀ pe ∈ es,
      root.2.value_start.index ≤ pe.2.value_start.index ∧
      pe.2.value_end.index ≤ root.2.value_end.index) := by
  constructor
  · rcases h with h | h | h
    · exact ((walk_spans (enoughFuel ts.length + 1)).1 ts es rem hWF h).1
    · exact ((walk_spans (enoughFuel ts.length)).2.1 ts es rem hWF h).1.1
    · obtain ⟨t, hts, -, hes⟩ := primitive_ok h
      subst hes
      intro pe hpe
      rcases List.mem_singleton.mp hpe with rfl
      exact (WFStream_cons (hts ▸ hWF)).2.1
  · intro hs root hroot pe hpe
    exact ((walk_spans (enoughFuel ts.length)).2.1 ts es rem hWF hs).2
      root hroot pe hpe

/-- Witness for C4: the nested document `[[1], 2]` over an in-order token
stream. -/
theorem c4_spans_witness :
    WFStream nestedDocStream ∧
    (value nestedDocStream = .ok (nestedDocEntries, []) ∨
      sequence nestedDocStream = .ok (nestedDocEntries, []) ∨
      primitive nestedDocStream = .ok (nestedDocEntries, [])) ∧
    SpanOrdered nestedDocEntries :=
  ⟨by decide, Or.inl rfl,
    (c4_spans nestedDocStream nestedDocEntries [] (by decide) (Or.inl rfl)).1⟩

end YamlSourceMap
